import Mathlib

/-!
Verification of the two parsing/extraction algorithms of the
`markdown-script` repository (files `automation.py` and
`generate-markdown.py`), via a shallow embedding of the relevant Python
functions over `List Char` (Python `str` is a sequence of characters;
we model it as `List Char`, with `String` wrappers at the interfaces).

The regular expressions used in the source are fixed, so each one is
embedded as a dedicated deterministic matching function whose behaviour
coincides with Python's backtracking semantics on that pattern
(arguments for the determinism of each pattern are given at the
corresponding definition).
-/

/-- The backtick character (code 96), written via `Char.ofNat`. -/
def bt : Char := Char.ofNat 96

/-- The double-quote character (code 34). -/
def quoteC : Char := Char.ofNat 34

/-- The single-quote character (code 39). -/
def squote : Char := Char.ofNat 39

/-- Python regex class `[a-zA-Z0-9]` (ASCII alphanumeric). -/
def isAlnum (c : Char) : Bool :=
  (('a' ≤ c) && (c ≤ 'z')) || (('A' ≤ c) && (c ≤ 'Z')) || (('0' ≤ c) && (c ≤ '9'))

/-- Python regex class `\s` and `str.strip()` whitespace, restricted to
the ASCII whitespace characters space, tab, newline, carriage return,
form feed and vertical tab (the inputs in scope are ASCII). -/
def isPySpace (c : Char) : Bool :=
  (c == ' ') || (c == Char.ofNat 9) || (c == Char.ofNat 10) ||
  (c == Char.ofNat 13) || (c == Char.ofNat 12) || (c == Char.ofNat 11)

/-- Boolean list-prefix test (Python `str.startswith`, and literal
chunks of the regexes). -/
def isPre : List Char → List Char → Bool
  | [], _ => true
  | _ :: _, [] => false
  | a :: as, b :: bs => (a == b) && isPre as bs

/-- The literal ``` opening/closing a fenced code block. -/
def fenceLit : List Char := [bt, bt, bt]

/-- The literal characters of `file="` in the block-opening regex. -/
def fileLit : List Char := ['f', 'i', 'l', 'e', '=', quoteC]

/-- Regex class `[^"]`. -/
def notQuote (c : Char) : Bool := c != quoteC

/-- Lazy `([\s\S]*?)` followed by a literal closing fence: split the
input at the first occurrence of ``` — returns the text before the
first fence and the text after it, or `none` when no fence occurs. -/
def splitAtFence : List Char → Option (List Char × List Char)
  | [] => none
  | c :: t =>
    if isPre fenceLit (c :: t) then some ([], (c :: t).drop 3)
    else (splitAtFence t).map (fun pr => (c :: pr.1, pr.2))

/-- One match attempt, at the head of `l`, of the pattern
`r'```[a-zA-Z0-9]+\s+file="([^"]*)"\n([\s\S]*?)```'` used by
`extract_files_from_markdown` (automation.py line 86).  Returns
`(path capture, content capture, rest of the text after the match)`.
The pattern is deterministic: `[a-zA-Z0-9]+` is followed by `\s+`
(disjoint classes), `\s+` is followed by the literal `f` (not a
whitespace character), `[^"]*` is followed by the literal `"`, so all
greedy parts take their maximal run, and the lazy part stops at the
first closing fence. -/
def matchFence (l : List Char) : Option (List Char × List Char × List Char) :=
  if isPre fenceLit l then
    let t := l.drop 3
    let lang := t.takeWhile isAlnum
    if lang.isEmpty then none
    else
      let t1 := t.dropWhile isAlnum
      let ws := t1.takeWhile isPySpace
      if ws.isEmpty then none
      else
        let t2 := t1.dropWhile isPySpace
        if isPre fileLit t2 then
          let t3 := t2.drop 6
          let path := t3.takeWhile notQuote
          let t4 := t3.dropWhile notQuote
          match t4 with
          | c1 :: c2 :: t5 =>
            if (c1 == quoteC) && (c2 == '\n') then
              (splitAtFence t5).map (fun pr => (path, pr.1, pr.2))
            else none
          | _ => none
        else none
  else none

/-- Scanner of `re.findall` for the block pattern: leftmost matches,
non-overlapping, scanning resumes after each match.  `fuel` bounds the
recursion; every step consumes at least one character, so
`fuel = length + 1` is always sufficient. -/
def extractGo : Nat → List Char → List (List Char × List Char)
  | 0, _ => []
  | fuel + 1, l =>
    match matchFence l with
    | some (p, c, rest) => (p, c) :: extractGo fuel rest
    | none =>
      match l with
      | [] => []
      | _ :: t => extractGo fuel t

/-- `re.findall(pattern, content)` for the block pattern. -/
def findall_files (l : List Char) : List (List Char × List Char) :=
  extractGo (l.length + 1) l

/-- `extract_files_from_markdown` (automation.py lines 85–94): find all
annotated blocks; if any captured path is empty after `strip()`, the
whole run aborts (`sys.exit(1)`, modelled as `none`); otherwise return
the list of (path, content) pairs. -/
def extract_files_from_markdown (s : String) : Option (List (String × String)) :=
  let results := findall_files s.data
  if results.any (fun r => r.1.all isPySpace) then none
  else some (results.map (fun r => (String.mk r.1, String.mk r.2)))

/-- The literal characters of `<ReactProject`. -/
def reactLit : List Char :=
  ['<', 'R', 'e', 'a', 'c', 't', 'P', 'r', 'o', 'j', 'e', 'c', 't']

/-- The literal characters of `id="`. -/
def idLit : List Char := ['i', 'd', '=', quoteC]

/-- One match attempt, at the head of `l`, of the pattern
`r'<ReactProject\s+id="([^"]+)"\s*>'` used by `extract_project_id`
(automation.py line 43).  Deterministic for the same reasons as the
block pattern (`\s+` is followed by `i`, `[^"]+` by `"`, `\s*` by `>`).
Returns the id capture. -/
def matchReactTag (l : List Char) : Option (List Char) :=
  if isPre reactLit l then
    let t := l.drop 13
    let ws := t.takeWhile isPySpace
    if ws.isEmpty then none
    else
      let t1 := t.dropWhile isPySpace
      if isPre idLit t1 then
        let t2 := t1.drop 4
        let v := t2.takeWhile notQuote
        if v.isEmpty then none
        else
          match t2.dropWhile notQuote with
          | c1 :: t3 =>
            if c1 == quoteC then
              match t3.dropWhile isPySpace with
              | c2 :: _ => if c2 == '>' then some v else none
              | [] => none
            else none
          | [] => none
      else none
  else none

/-- `re.search` for the wrapper-tag pattern: first position at which a
match succeeds wins. -/
def searchReact : List Char → Option (List Char)
  | [] => none
  | c :: t =>
    match matchReactTag (c :: t) with
    | some v => some v
    | none => searchReact t

/-- `extract_project_id` (automation.py lines 42–47): `re.search` for
the wrapper tag; no match aborts the run (modelled as `none`). -/
def extract_project_id (s : String) : Option String :=
  (searchReact s.data).map String.mk

/-- The literal characters of `import`. -/
def importLit : List Char := ['i', 'm', 'p', 'o', 'r', 't']

/-- The literal characters of `from`. -/
def fromLit : List Char := ['f', 'r', 'o', 'm']

/-- Regex class `['"]`. -/
def isQuote (c : Char) : Bool := (c == quoteC) || (c == squote)

/-- Regex class `.` without `re.DOTALL`: any character except newline. -/
def notNL (c : Char) : Bool := c != '\n'

/-- Match, after a literal `import`, the tail
`\s+.*?\s+from\s+['"]([^'"]+)['"]` of the import pattern used by
`install_third_party_dependencies` (automation.py line 103).  Returns
`(specifier capture, rest after the match)`.

Backtracking semantics of the pattern: the first `\s+` is greedy, so
Python explores its run lengths longest-first, down to one character —
`List.findSome?` over the descending range `[w1, ..., 1]` implements
this.  (The run cannot simply be taken maximal: when the lazy `.*?` is
empty, the second `\s+` consumes part of the same whitespace run, as in
`import  from 'x'`, which matches with the first `\s+` taking one of
the two spaces.)  Inside each choice the lazy `.*?` is explored
shortest-first, an ascending range; it cannot cross a newline.  The
second and third `\s+` are each followed by a non-whitespace literal
(`f` of `from`, or a quote), so once the earlier choices are fixed
they deterministically take their maximal nonempty run, and `[^'"]+`
is followed by a quote, so it deterministically stops at the first
quote character (either kind, as in the pattern). -/
def matchImportTail (t : List Char) : Option (List Char × List Char) :=
  let w1 := (t.takeWhile isPySpace).length
  ((List.range w1).reverse.map (fun k => k + 1)).findSome? (fun k1 =>
    let t1 := t.drop k1
    let d := (t1.takeWhile notNL).length
    (List.range (d + 1)).findSome? (fun k2 =>
      let t2 := t1.drop k2
      let w3 := (t2.takeWhile isPySpace).length
      if w3 == 0 then none
      else
        let t3 := t2.drop w3
        if isPre fromLit t3 then
          let t4 := t3.drop 4
          let w4 := (t4.takeWhile isPySpace).length
          if w4 == 0 then none
          else
            match t4.drop w4 with
            | q :: t6 =>
              if isQuote q then
                let spec := t6.takeWhile (fun c => !(isQuote c))
                if spec.isEmpty then none
                else
                  match t6.drop spec.length with
                  | q2 :: t8 => if isQuote q2 then some (spec, t8) else none
                  | [] => none
              else none
            | [] => none
        else none))

/-- One match attempt, at the head of `l`, of the import pattern
`r'import\s+.*?\s+from\s+[\'"]([^\'"]+)[\'"]'`. -/
def tryImportAt (l : List Char) : Option (List Char × List Char) :=
  if isPre importLit l then matchImportTail (l.drop 6) else none

/-- Scanner of `re.findall` for the import pattern. -/
def importsGo : Nat → List Char → List (List Char)
  | 0, _ => []
  | fuel + 1, l =>
    match tryImportAt l with
    | some (spec, rest) => spec :: importsGo fuel rest
    | none =>
      match l with
      | [] => []
      | _ :: t => importsGo fuel t

/-- `re.findall(import pattern, code)`: the list of captured module
specifiers, in document order. -/
def importSpecifiers (code : List Char) : List (List Char) :=
  importsGo (code.length + 1) code

/-- `ignore_dependencies = []` (automation.py line 96). -/
def ignore_dependencies : List (List Char) := []

/-- `blacklist_prefixes = ("next/")` (automation.py line 97).  Note
that in Python `("next/")` is the plain string `"next/"`, not a
one-element tuple, so this value is a string and iterating over it
yields its characters. -/
def blacklist_prefixes : List Char := ['n', 'e', 'x', 't', '/']

/-- Python `str.split('/')`: split at every slash; the result is always
nonempty and splitting the empty string yields `[[]]`, as in Python. -/
def splitOnSlash : List Char → List (List Char)
  | [] => [[]]
  | c :: t =>
    let r := splitOnSlash t
    if c == '/' then [] :: r
    else
      match r with
      | [] => [[c]]
      | h :: hs => (c :: h) :: hs

/-- Adding an element to the Python `set` of dependencies, modelled as
an insertion-ordered duplicate-free list (membership-faithful). -/
def addDep (acc : List (List Char)) (d : List Char) : List (List Char) :=
  if d ∈ acc then acc else acc ++ [d]

/-- The body of the per-specifier loop of
`install_third_party_dependencies` (automation.py lines 104–116):
skip specifiers in the ignore list; skip specifiers starting with any
element of `blacklist_prefixes` — since that value is a string, the
elements iterated over are its characters, and the test is
`dep.startswith(<one character>)`; skip local imports (`./`, `@/`);
otherwise add `scope/name` for slash-containing specifiers
(first two slash-delimited segments) and the specifier itself for the
rest. -/
def processDep (acc : List (List Char)) (dep : List Char) : List (List Char) :=
  if dep ∈ ignore_dependencies then acc
  else if blacklist_prefixes.any (fun pc => isPre [pc] dep) then acc
  else if isPre ['.', '/'] dep || isPre ['@', '/'] dep then acc
  else if dep.contains '/' then
    let parts := splitOnSlash dep
    let scope := parts.headD []
    let name := (parts.drop 1).headD []
    addDep acc (scope ++ '/' :: name)
  else addDep acc dep

/-- `install_third_party_dependencies` (automation.py lines 99–124),
restricted to the pure part: the construction of the `dependencies`
set from the extracted files.  The subsequent package-manager
invocation is an external side effect outside the model. -/
def install_third_party_dependencies (files : List (List Char × List Char)) :
    List (List Char) :=
  files.foldl (fun acc f => (importSpecifiers f.2).foldl processDep acc) []

/-- `os.path.splitext(file_path)[1][1:]` (generate-markdown.py line
112): the extension of the basename after its last dot, without the
dot; empty when the basename has no dot, or when every character
before the last dot is itself a dot (Python's splitext ignores leading
dots of the basename). -/
def extOf (p : List Char) : List Char :=
  let bn := (p.reverse.takeWhile (fun c => c != '/')).reverse
  let revbn := bn.reverse
  let afterDotRev := revbn.takeWhile (fun c => c != '.')
  match revbn.dropWhile (fun c => c != '.') with
  | [] => []
  | _ :: stemRev => if stemRev.any (fun c => c != '.') then afterDotRev.reverse else []

/-- The type label of a record in `create_markdown` (generate-markdown.py
line 114): JavaScript/TypeScript-family extensions collapse to `tsx`,
anything else keeps the raw extension. -/
def file_type (p : List Char) : List Char :=
  let e := extOf p
  if e = ['t', 's', 'x'] ∨ e = ['j', 's', 'x'] ∨ e = ['t', 's'] ∨ e = ['j', 's']
  then ['t', 's', 'x'] else e

/-- The text `create_markdown` appends for one file (generate-markdown.py
line 116): `{file_type} file="{file_path}"\n<file_codes>\n{content}\n</file_codes>\n\n`. -/
def mdEntry (p c : List Char) : List Char :=
  file_type p ++ ' ' :: fileLit ++ p ++ quoteC :: '\n' ::
    ("<file_codes>\n").data ++ c ++ ("\n</file_codes>\n\n").data

/-- `create_markdown` (generate-markdown.py lines 107–119) at the
character-list level. -/
def create_markdown_chars (files : List (List Char × List Char)) : List Char :=
  ("<ReactProject>\n\n").data ++
    files.foldr (fun f acc => mdEntry f.1 f.2 ++ acc) [] ++
    ("</ReactProject>\n").data

/-- `create_markdown` with `String` records at the interface. -/
def create_markdown (files : List (String × String)) : String :=
  String.mk (create_markdown_chars (files.map (fun f => (f.1.data, f.2.data))))

/-- The literal `://` separating scheme from network location. -/
def schemeSep : List Char := [':', '/', '/']

/-- Locate the first `://` in a URL and return the text after it, if
any. -/
def findScheme : List Char → Option (List Char)
  | [] => none
  | c :: t =>
    if isPre schemeSep (c :: t) then some ((c :: t).drop 3)
    else findScheme t

/-- `urlparse(url).path`, modelled for URLs of the form
`scheme://host/path` without query or fragment (the only shape this
repository handles): the text of the first `/`-started suffix after
the network location; for input without `://` the whole input is the
path. -/
def urlPath (url : List Char) : List Char :=
  match findScheme url with
  | some rest => rest.dropWhile (fun c => c != '/')
  | none => url

/-- Python `str.rstrip('/')`. -/
def rstripSlash (l : List Char) : List Char :=
  (l.reverse.dropWhile (fun c => c == '/')).reverse

/-- Python `str.strip('/')`. -/
def stripSlash (l : List Char) : List Char :=
  rstripSlash (l.dropWhile (fun c => c == '/'))

/-- Python `'/'.join(parts)`. -/
def joinSlash : List (List Char) → List Char
  | [] => []
  | [p] => p
  | p :: q :: r => p ++ '/' :: joinSlash (q :: r)

/-- The literal characters of `tree`. -/
def treeLit : List Char := ['t', 'r', 'e', 'e']

/-- `parse_github_url` (generate-markdown.py lines 18–41): strip
trailing slashes, take the URL path, split it on `/`; fewer than two
segments is a `ValueError` (modelled as `none`); the first two
segments are owner and repo; when there are more than three segments
and the third is `tree`, the fourth is the branch and the segments
after it joined form the subpath, otherwise the branch is `main` and
the segments from the fourth onward joined form the subpath.  Returns
`(owner, repo, branch, path)`. -/
def parse_github_url (url : String) : Option (String × String × String × String) :=
  let u := rstripSlash url.data
  let parts := splitOnSlash (stripSlash (urlPath u))
  if parts.length < 2 then none
  else
    let owner := parts.headD []
    let repo := (parts.drop 1).headD []
    if parts.length > 3 ∧ parts.getD 2 [] = treeLit then
      some (String.mk owner, String.mk repo, String.mk (parts.getD 3 []),
            String.mk (joinSlash (parts.drop 4)))
    else
      some (String.mk owner, String.mk repo, "main",
            String.mk (joinSlash (parts.drop 3)))

/-- A well-formed annotated code block of the input format consumed by
`extract_files_from_markdown`: optional leading text, a language tag,
a `file` attribute value and the block content. -/
structure MDBlock where
  lead : List Char
  lang : List Char
  path : List Char
  content : List Char

/-- The fenced part of a well-formed block, following the spec's block
format: an opening fence with language tag and `file="<path>"`
attribute, a newline, the content, and a closing fence. -/
def fencePart (b : MDBlock) : List Char :=
  fenceLit ++ b.lang ++ ' ' :: fileLit ++ b.path ++ quoteC :: '\n' :: b.content ++ fenceLit

/-- A rendered block: its leading text followed by its fenced part. -/
def renderBlock (b : MDBlock) : List Char :=
  b.lead ++ fencePart b

/-- A well-formed markdown document: rendered blocks in order followed
by trailing text. -/
def renderDoc (bs : List MDBlock) (trail : List Char) : List Char :=
  bs.foldr (fun b acc => renderBlock b ++ acc) trail

/-- Well-formedness of one block: no backtick in the leading text or
the content (a backtick sequence would terminate the lazy content
capture early), a nonempty ASCII-alphanumeric language tag (the shape
the pattern's `[a-zA-Z0-9]+` accepts), and no double quote in the
path (the shape `[^"]*` accepts). -/
def goodBlock (b : MDBlock) : Prop :=
  (∀ c ∈ b.lead, c ≠ bt) ∧ b.lang ≠ [] ∧ (∀ c ∈ b.lang, isAlnum c = true) ∧
  (∀ c ∈ b.path, c ≠ quoteC) ∧ (∀ c ∈ b.content, c ≠ bt)

instance (b : MDBlock) : Decidable (goodBlock b) := by
  unfold goodBlock; infer_instance

/-- A greedy character-class run over `l ++ c :: r` stops exactly at
`c` when all of `l` satisfies the class and `c` does not. -/
theorem takeWhile_append_stop (p : Char → Bool) (l : List Char) (c : Char)
    (r : List Char) (hl : ∀ a ∈ l, p a = true) (hc : p c = false) :
    (l ++ c :: r).takeWhile p = l := by
  induction l with
  | nil => simp [List.takeWhile_cons, hc]
  | cons a t ih =>
    have ha : p a = true := hl a (List.mem_cons_self a t)
    simp only [List.cons_append, List.takeWhile_cons, ha, if_true]
    rw [ih (fun x hx => hl x (List.mem_cons_of_mem a hx))]

/-- Companion of `takeWhile_append_stop` for the rest of the text. -/
theorem dropWhile_append_stop (p : Char → Bool) (l : List Char) (c : Char)
    (r : List Char) (hl : ∀ a ∈ l, p a = true) (hc : p c = false) :
    (l ++ c :: r).dropWhile p = c :: r := by
  induction l with
  | nil => simp [List.dropWhile_cons, hc]
  | cons a t ih =>
    have ha : p a = true := hl a (List.mem_cons_self a t)
    simp only [List.cons_append, List.dropWhile_cons, ha, if_true]
    exact ih (fun x hx => hl x (List.mem_cons_of_mem a hx))

/-- A list is a prefix of itself followed by anything. -/
theorem isPre_append_self (p r : List Char) : isPre p (p ++ r) = true := by
  induction p with
  | nil => rfl
  | cons a t ih => simp [isPre, ih]

/-- A prefix test headed by a character different from the head of the
text fails. -/
theorem isPre_cons_ne (a : Char) (as : List Char) (b : Char) (bs : List Char)
    (h : a ≠ b) : isPre (a :: as) (b :: bs) = false := by
  simp [isPre, h]

/-- The lazy content capture stops at the first fence: splitting
fence-free text followed by a closing fence returns that text and what
follows the fence. -/
theorem splitAtFence_append (content rest : List Char)
    (h : ∀ c ∈ content, c ≠ bt) :
    splitAtFence (content ++ fenceLit ++ rest) = some (content, rest) := by
  induction content with
  | nil =>
    simp only [List.nil_append, fenceLit, List.cons_append]
    simp [splitAtFence, isPre, List.nil_append]
  | cons c t ih =>
    have hc : c ≠ bt := h c (List.mem_cons_self c t)
    have hpre : isPre fenceLit (c :: (t ++ fenceLit ++ rest)) = false := by
      simpa [fenceLit] using isPre_cons_ne bt [bt, bt] c _ (Ne.symm hc)
    have ih' := ih (fun x hx => h x (List.mem_cons_of_mem c hx))
    simp only [List.cons_append, splitAtFence, List.append_eq, hpre,
      Bool.false_eq_true, if_false, ih', Option.map_some']

/-- No block match can begin at a character other than a backtick. -/
theorem matchFence_cons_ne (c : Char) (t : List Char) (hc : c ≠ bt) :
    matchFence (c :: t) = none := by
  have hpre : isPre fenceLit (c :: t) = false := by
    simpa [fenceLit] using isPre_cons_ne bt [bt, bt] c t (Ne.symm hc)
  simp [matchFence, hpre]

/-- No block match begins at the end of the text. -/
theorem matchFence_nil : matchFence [] = none := rfl

/-- Scanning backtick-free text finds no block, whatever the fuel. -/
theorem extractGo_noBT : ∀ (fuel : Nat) (l : List Char),
    (∀ c ∈ l, c ≠ bt) → extractGo fuel l = [] := by
  intro fuel
  induction fuel with
  | zero => intro l _; rfl
  | succ n ih =>
    intro l hl
    cases l with
    | nil => simp [extractGo, matchFence_nil]
    | cons c t =>
      have hc := hl c (List.mem_cons_self c t)
      simp [extractGo, matchFence_cons_ne c t hc,
        ih t (fun x hx => hl x (List.mem_cons_of_mem c hx))]

/-- Scanning steps through backtick-free leading text one character at
a time without finding a match. -/
theorem extractGo_skip (lead : List Char) (hl : ∀ c ∈ lead, c ≠ bt) :
    ∀ (fuel : Nat) (r : List Char),
    extractGo (lead.length + fuel) (lead ++ r) = extractGo fuel r := by
  induction lead with
  | nil => intro fuel r; simp
  | cons c t ih =>
    intro fuel r
    have hc := hl c (List.mem_cons_self c t)
    have hlen : (c :: t).length + fuel = (t.length + fuel) + 1 := by
      simp [List.length_cons]; omega
    rw [hlen]
    simp only [List.cons_append, extractGo, matchFence_cons_ne c _ hc]
    exact ih (fun x hx => hl x (List.mem_cons_of_mem c hx)) fuel r

/-- One-step unfolding of the block scanner at successor fuel. -/
theorem extractGo_succ (fuel : Nat) (l : List Char) :
    extractGo (fuel + 1) l =
      match matchFence l with
      | some (p, c, rest) => (p, c) :: extractGo fuel rest
      | none =>
        match l with
        | [] => []
        | _ :: t => extractGo fuel t := rfl

/-- A match attempt at the opening fence of a well-formed block
succeeds and captures exactly the block's path and content, resuming
after the closing fence. -/
theorem matchFence_block (b : MDBlock) (rest : List Char)
    (hlang : b.lang ≠ []) (hlangA : ∀ c ∈ b.lang, isAlnum c = true)
    (hpath : ∀ c ∈ b.path, c ≠ quoteC) (hcont : ∀ c ∈ b.content, c ≠ bt) :
    matchFence (fencePart b ++ rest) = some (b.path, b.content, rest) := by
  have hshape : fencePart b ++ rest =
      fenceLit ++ (b.lang ++ ' ' :: (fileLit ++ (b.path ++ quoteC :: '\n' ::
        (b.content ++ fenceLit ++ rest)))) := by
    simp [fencePart, List.append_assoc]
  have hE : b.lang.isEmpty = false := by
    cases hL : b.lang with
    | nil => exact absurd hL hlang
    | cons a as => rfl
  have hpath' : ∀ a ∈ b.path, notQuote a = true := by
    intro a ha; simp [notQuote, hpath a ha]
  have h2 : (fenceLit ++ (b.lang ++ ' ' :: (fileLit ++ (b.path ++ quoteC :: '\n' ::
      (b.content ++ fenceLit ++ rest))))).drop 3 =
      b.lang ++ ' ' :: (fileLit ++ (b.path ++ quoteC :: '\n' ::
      (b.content ++ fenceLit ++ rest))) :=
    List.drop_left' rfl
  have h3 : (b.lang ++ ' ' :: (fileLit ++ (b.path ++ quoteC :: '\n' ::
      (b.content ++ fenceLit ++ rest)))).takeWhile isAlnum = b.lang :=
    takeWhile_append_stop _ _ _ _ hlangA (by decide)
  have h4 : (b.lang ++ ' ' :: (fileLit ++ (b.path ++ quoteC :: '\n' ::
      (b.content ++ fenceLit ++ rest)))).dropWhile isAlnum =
      ' ' :: (fileLit ++ (b.path ++ quoteC :: '\n' ::
      (b.content ++ fenceLit ++ rest))) :=
    dropWhile_append_stop _ _ _ _ hlangA (by decide)
  have hYcons : fileLit ++ (b.path ++ quoteC :: '\n' ::
      (b.content ++ fenceLit ++ rest)) =
      'f' :: (['i', 'l', 'e', '=', quoteC] ++ (b.path ++ quoteC :: '\n' ::
      (b.content ++ fenceLit ++ rest))) := rfl
  have h5 : (' ' :: (fileLit ++ (b.path ++ quoteC :: '\n' ::
      (b.content ++ fenceLit ++ rest)))).takeWhile isPySpace = [' '] := by
    rw [hYcons]
    rw [List.takeWhile_cons_of_pos (by decide : isPySpace ' ' = true)]
    rw [List.takeWhile_cons_of_neg (by decide : ¬ isPySpace 'f' = true)]
  have h6 : (' ' :: (fileLit ++ (b.path ++ quoteC :: '\n' ::
      (b.content ++ fenceLit ++ rest)))).dropWhile isPySpace =
      fileLit ++ (b.path ++ quoteC :: '\n' ::
      (b.content ++ fenceLit ++ rest)) := by
    rw [hYcons]
    rw [List.dropWhile_cons_of_pos (by decide : isPySpace ' ' = true)]
    rw [List.dropWhile_cons_of_neg (by decide : ¬ isPySpace 'f' = true)]
  have h7 : (fileLit ++ (b.path ++ quoteC :: '\n' ::
      (b.content ++ fenceLit ++ rest))).drop 6 =
      b.path ++ quoteC :: '\n' :: (b.content ++ fenceLit ++ rest) :=
    List.drop_left' rfl
  have h8 : (b.path ++ quoteC :: '\n' ::
      (b.content ++ fenceLit ++ rest)).takeWhile notQuote = b.path :=
    takeWhile_append_stop _ _ _ _ hpath' (by simp [notQuote])
  have h9 : (b.path ++ quoteC :: '\n' ::
      (b.content ++ fenceLit ++ rest)).dropWhile notQuote =
      quoteC :: '\n' :: (b.content ++ fenceLit ++ rest) :=
    dropWhile_append_stop _ _ _ _ hpath' (by simp [notQuote])
  rw [hshape]
  simp only [matchFence]
  rw [isPre_append_self, h2, h3, h4, h5, h6, h7, h8, h9, hE, isPre_append_self]
  simp only [Bool.false_eq_true, if_false, if_true, List.isEmpty_cons,
    beq_self_eq_true, Bool.and_self, eq_self_iff_true]
  simpa [List.append_assoc] using splitAtFence_append b.content rest hcont

/-- Scanning a well-formed document yields exactly its blocks' paths
and contents, in order, for any sufficient fuel of the stated shape. -/
theorem extractGo_renderDoc : ∀ (bs : List MDBlock) (trail : List Char),
    (∀ b ∈ bs, goodBlock b) → (∀ c ∈ trail, c ≠ bt) →
    ∀ fuel : Nat,
      extractGo ((renderDoc bs trail).length + fuel + 1) (renderDoc bs trail) =
        bs.map (fun b => (b.path, b.content)) := by
  intro bs
  induction bs with
  | nil =>
    intro trail _ ht fuel
    simpa [renderDoc] using extractGo_noBT (trail.length + fuel + 1) trail ht
  | cons b bs ih =>
    intro trail hg ht fuel
    obtain ⟨hlead, hlang, hlangA, hpath, hcont⟩ := hg b (List.mem_cons_self b bs)
    have hgs : ∀ x ∈ bs, goodBlock x := fun x hx => hg x (List.mem_cons_of_mem b hx)
    have hdoc : renderDoc (b :: bs) trail =
        b.lead ++ (fencePart b ++ renderDoc bs trail) := by
      simp [renderDoc, renderBlock, List.append_assoc]
    rw [hdoc]
    have harith : (b.lead ++ (fencePart b ++ renderDoc bs trail)).length + fuel + 1 =
        b.lead.length +
          ((fencePart b).length + (renderDoc bs trail).length + fuel + 1) := by
      simp [List.length_append]; omega
    rw [harith, extractGo_skip b.lead hlead]
    have hfl : 1 ≤ (fencePart b).length := by
      simp only [fencePart, fenceLit, fileLit, List.length_append,
        List.length_cons, List.length_nil]
      omega
    obtain ⟨m, hm⟩ : ∃ m, (fencePart b).length = m + 1 :=
      ⟨(fencePart b).length - 1, by omega⟩
    have hsucc : (fencePart b).length + (renderDoc bs trail).length + fuel + 1 =
        ((renderDoc bs trail).length + (m + fuel) + 1) + 1 := by omega
    rw [hsucc, extractGo_succ,
      matchFence_block b (renderDoc bs trail) hlang hlangA hpath hcont]
    simp [ih trail hgs ht (m + fuel)]

/-- `re.findall` on a well-formed document returns exactly its blocks'
captures, in order. -/
theorem findall_renderDoc (bs : List MDBlock) (trail : List Char)
    (hg : ∀ b ∈ bs, goodBlock b) (ht : ∀ c ∈ trail, c ≠ bt) :
    findall_files (renderDoc bs trail) = bs.map (fun b => (b.path, b.content)) := by
  have h := extractGo_renderDoc bs trail hg ht 0
  simpa [findall_files] using h

/-- C5: For every well-formed markdown input containing N distinct
non-colliding annotated code blocks, extraction yields exactly N
records, each with path and content matching the source text verbatim. -/
theorem C5_extraction_verbatim (bs : List MDBlock) (trail : List Char)
    (hg : ∀ b ∈ bs, goodBlock b) (ht : ∀ c ∈ trail, c ≠ bt)
    (_hnodup : (bs.map (fun b => b.path)).Nodup)
    (hpaths : ∀ b ∈ bs, ¬ (b.path.all isPySpace = true)) :
    extract_files_from_markdown (String.mk (renderDoc bs trail)) =
      some (bs.map (fun b => (String.mk b.path, String.mk b.content))) ∧
    (bs.map (fun b => (String.mk b.path, String.mk b.content))).length = bs.length := by
  refine ⟨?_, by simp⟩
  simp only [extract_files_from_markdown]
  rw [findall_renderDoc bs trail hg ht]
  have hany : (bs.map (fun b => (b.path, b.content))).any
      (fun r => r.1.all isPySpace) = false := by
    rw [List.any_eq_false]
    intro r hr
    rw [List.mem_map] at hr
    obtain ⟨b, hb, rfl⟩ := hr
    exact fun hall => hpaths b hb hall
  rw [hany]
  simp [List.map_map, Function.comp]

/-- C5 witness: a concrete two-block document extracts to its two
records. -/
theorem C5_extraction_verbatim_witness :
    extract_files_from_markdown (String.mk (renderDoc
      [⟨[], ("tsx").data, ("a.ts").data, ("let x = 1\n").data⟩,
       ⟨('\n' :: '\n' :: []), ("css").data, ("b.css").data, ("body\n").data⟩] [])) =
      some [("a.ts", "let x = 1\n"), ("b.css", "body\n")] ∧
    ([("a.ts", "let x = 1\n"), ("b.css", "body\n")] :
      List (String × String)).length = 2 :=
  C5_extraction_verbatim
    [⟨[], ("tsx").data, ("a.ts").data, ("let x = 1\n").data⟩,
     ⟨('\n' :: '\n' :: []), ("css").data, ("b.css").data, ("body\n").data⟩] []
    (by decide) (by decide) (by decide) (by decide)

/-- C4: a matched code block whose file attribute is empty or
whitespace-only makes the whole extraction fail with no partial
results, whatever else the document contains. -/
theorem C4_empty_path_fails (s : String)
    (h : ∃ r ∈ findall_files s.data, r.1.all isPySpace = true) :
    extract_files_from_markdown s = none := by
  simp only [extract_files_from_markdown]
  have hany : (findall_files s.data).any (fun r => r.1.all isPySpace) = true := by
    rw [List.any_eq_true]
    obtain ⟨r, hr, hall⟩ := h
    exact ⟨r, hr, hall⟩
  rw [hany]
  simp

/-- C4 witness: a document with one valid block and one block with an
empty `file=""` attribute fails as a whole. -/
theorem C4_empty_path_fails_witness :
    extract_files_from_markdown
      ("```tsx file=\"a.ts\"\nx\n```\n```tsx file=\"\"\ny\n```") = none :=
  C4_empty_path_fails ("```tsx file=\"a.ts\"\nx\n```\n```tsx file=\"\"\ny\n```")
    (by decide)

/-- C3 counterexample: the language tag `c++` is not alphanumeric, so a
block carrying it with a well-formed `file` attribute is not matched at
all — the claim that any language tag value is tolerated is false. -/
theorem C3_counterexample :
    findall_files (("```c++ file=\"a.ts\"\nx\n```").data) = [] ∧
    extract_files_from_markdown ("```c++ file=\"a.ts\"\nx\n```") = some [] := by
  constructor
  · decide
  · decide

/-- C3 amended: matching tolerates any nonempty ASCII-alphanumeric
language tag — for every such tag, a fenced block whose opening fence
carries the tag followed by a `file="<path>"` attribute and a newline
is matched, with its path and content captured verbatim. -/
theorem C3_amended_any_alnum_tag (lang path content : List Char)
    (h1 : lang ≠ []) (h2 : ∀ c ∈ lang, isAlnum c = true)
    (h3 : ∀ c ∈ path, c ≠ quoteC) (h4 : ∀ c ∈ content, c ≠ bt) :
    findall_files (fenceLit ++ lang ++ ' ' :: fileLit ++ path ++
      quoteC :: '\n' :: content ++ fenceLit) = [(path, content)] := by
  have h := findall_renderDoc [⟨[], lang, path, content⟩] []
    (by
      intro b hb
      rw [List.mem_singleton] at hb
      subst hb
      exact ⟨by simp, h1, h2, h3, h4⟩)
    (by simp)
  simpa [renderDoc, renderBlock, fencePart, List.append_assoc] using h

/-- C3 amended witness: a concrete alphanumeric tag is matched. -/
theorem C3_amended_any_alnum_tag_witness :
    findall_files (fenceLit ++ ("py3").data ++ ' ' :: fileLit ++ ("m.py").data ++
      quoteC :: '\n' :: ("pass\n").data ++ fenceLit) =
      [(("m.py").data, ("pass\n").data)] :=
  C3_amended_any_alnum_tag (("py3").data) (("m.py").data) (("pass\n").data)
    (by decide) (by decide) (by decide) (by decide)

/-- C8: zero matched blocks yield the empty sequence rather than an
error, and a code fence missing the `file=` attribute is not matched at
all and is not an error. -/
theorem C8_zero_blocks :
    (∀ s : String, findall_files s.data = [] →
      extract_files_from_markdown s = some []) ∧
    findall_files (("```tsx\nlet x = 1\n```").data) = [] ∧
    extract_files_from_markdown ("```tsx\nlet x = 1\n```") = some [] := by
  refine ⟨?_, by decide, by decide⟩
  intro s h
  simp only [extract_files_from_markdown, h]
  simp

/-- C8 witness: a document with no code fence at all extracts to the
empty sequence. -/
theorem C8_zero_blocks_witness :
    findall_files (("plain text, no blocks").data) = [] ∧
    extract_files_from_markdown ("plain text, no blocks") = some [] :=
  ⟨by decide, C8_zero_blocks.1 ("plain text, no blocks") (by decide)⟩

/-- When no position of the text starts a wrapper-tag match, the search
fails. -/
theorem searchReact_eq_none (l : List Char)
    (h : ∀ i, i < l.length → matchReactTag (l.drop i) = none) :
    searchReact l = none := by
  induction l with
  | nil => rfl
  | cons c t ih =>
    have h0 := h 0 (by simp)
    rw [List.drop_zero] at h0
    simp only [searchReact, h0]
    refine ih (fun i hi => ?_)
    have := h (i + 1) (by simpa using Nat.succ_lt_succ hi)
    simpa using this

/-- C7: `extract_project_id` fails for every input in which no position
starts a wrapper-tag-with-id match; `<ReactProject id="demo">` yields
`demo`; and when several wrapper tags are present the first match
wins. -/
theorem C7_project_id :
    (∀ s : String,
      (∀ i, i < s.data.length → matchReactTag (s.data.drop i) = none) →
      extract_project_id s = none) ∧
    extract_project_id ("<ReactProject id=\"demo\">") = some ("demo") ∧
    extract_project_id
      ("a <ReactProject id=\"one\"> b <ReactProject id=\"two\">") = some ("one") := by
  refine ⟨?_, by decide, by decide⟩
  intro s h
  simp only [extract_project_id, searchReact_eq_none s.data h, Option.map_none']

/-- C7 witness: a concrete input with no wrapper tag fails. -/
theorem C7_project_id_witness :
    extract_project_id ("no wrapper tag here") = none :=
  C7_project_id.1 ("no wrapper tag here") (by decide)

/-- C9: a wrapper tag whose id attribute is the empty string is
rejected by the `[^"]+` capture, so extraction fails exactly as when no
wrapper tag is present at all. -/
theorem C9_empty_id_fails :
    extract_project_id ("<ReactProject id=\"\">") = none ∧
    extract_project_id ("<ReactProject id=\"\">") =
      extract_project_id ("no tag present") := by
  exact ⟨by decide, by decide⟩

/-- Membership in a greedy-run capture implies membership in the text. -/
theorem mem_of_mem_takeWhile {p : Char → Bool} {l : List Char} {a : Char}
    (h : a ∈ l.takeWhile p) : a ∈ l := by
  induction l with
  | nil => simp at h
  | cons c t ih =>
    by_cases hc : p c
    · rw [List.takeWhile_cons_of_pos hc] at h
      rcases List.mem_cons.mp h with rfl | h'
      · exact List.mem_cons_self _ _
      · exact List.mem_cons_of_mem _ (ih h')
    · rw [List.takeWhile_cons_of_neg hc] at h
      simp at h

/-- Every character of a record's extension is a character of its
path. -/
theorem mem_of_mem_extOf {p : List Char} {c : Char} (h : c ∈ extOf p) : c ∈ p := by
  simp only [extOf, List.reverse_reverse] at h
  split at h
  · simp at h
  · split at h
    · rw [List.mem_reverse] at h
      have h2 := mem_of_mem_takeWhile h
      have h3 := mem_of_mem_takeWhile h2
      rw [List.mem_reverse] at h3
      exact h3
    · simp at h

/-- The type label of a record is drawn from its path or is the
literal `tsx`. -/
theorem mem_file_type {p : List Char} {c : Char} (h : c ∈ file_type p) :
    c ∈ p ∨ c ∈ ['t', 's', 'x'] := by
  simp only [file_type] at h
  split at h
  · exact Or.inr h
  · exact Or.inl (mem_of_mem_extOf h)

/-- Characters of an appended text avoid the backtick when both parts
do. -/
theorem noBT_append {l1 l2 : List Char} (h1 : ∀ c ∈ l1, c ≠ bt)
    (h2 : ∀ c ∈ l2, c ≠ bt) : ∀ c ∈ l1 ++ l2, c ≠ bt := by
  intro c hc
  rcases List.mem_append.mp hc with h | h
  · exact h1 c h
  · exact h2 c h

/-- Cons version of `noBT_append`. -/
theorem noBT_cons {a : Char} {l : List Char} (h0 : a ≠ bt)
    (h : ∀ c ∈ l, c ≠ bt) : ∀ c ∈ a :: l, c ≠ bt := by
  intro c hc
  rcases List.mem_cons.mp hc with rfl | h'
  · exact h0
  · exact h c h'

/-- One formatter entry contains no backtick when the record's path and
content contain none: the fixed skeleton has none, and the type label
is drawn from the path or is `tsx`. -/
theorem noBT_mdEntry {p cont : List Char} (hp : ∀ c ∈ p, c ≠ bt)
    (hc : ∀ c ∈ cont, c ≠ bt) : ∀ c ∈ mdEntry p cont, c ≠ bt := by
  have hft : ∀ c ∈ file_type p, c ≠ bt := by
    intro c hcc
    rcases mem_file_type hcc with h | h
    · exact hp c h
    · rcases (by simpa using h : c = 't' ∨ c = 's' ∨ c = 'x') with rfl | rfl | rfl <;>
        decide
  unfold mdEntry
  exact noBT_append (noBT_append (noBT_append (noBT_append (noBT_append hft
    (noBT_cons (by decide) (by decide))) hp)
    (noBT_cons (by decide) (noBT_cons (by decide) (by decide)))) hc) (by decide)

/-- The formatter's whole output contains no backtick when every
record's path and content contain none. -/
theorem noBT_create_markdown (files : List (List Char × List Char))
    (h : ∀ f ∈ files, (∀ c ∈ f.1, c ≠ bt) ∧ (∀ c ∈ f.2, c ≠ bt)) :
    ∀ c ∈ create_markdown_chars files, c ≠ bt := by
  unfold create_markdown_chars
  refine noBT_append (noBT_append (by decide) ?_) (by decide)
  induction files with
  | nil => simp
  | cons f fs ih =>
    simp only [List.foldr_cons]
    obtain ⟨hp, hc⟩ := h f (List.mem_cons_self f fs)
    exact noBT_append (noBT_mdEntry hp hc)
      (ih (fun x hx => h x (List.mem_cons_of_mem f hx)))

/-- C1 counterexample: on the single record `("a.ts", "x")` — whose
path and content contain no closing-fence sequence — the formatter
emits `<file_codes>` tags rather than fenced code blocks, so feeding
its output back through the extractor yields the empty record list,
not the original records. -/
theorem C1_counterexample :
    (∀ c ∈ ("a.ts").data, c ≠ bt) ∧ (∀ c ∈ ("x").data, c ≠ bt) ∧
    extract_files_from_markdown (create_markdown [("a.ts", "x")]) = some [] ∧
    extract_files_from_markdown (create_markdown [("a.ts", "x")]) ≠
      some [("a.ts", "x")] :=
  ⟨by decide, by decide, by decide, by decide⟩

/-- C1 amended: for every record sequence whose paths and contents
contain no backtick, the round trip collapses — the formatter's output
contains no fenced code block, so extraction returns the empty list,
which equals the input records exactly when the input is empty. -/
theorem C1_amended_round_trip (files : List (String × String))
    (h : ∀ f ∈ files, (∀ c ∈ f.1.data, c ≠ bt) ∧ (∀ c ∈ f.2.data, c ≠ bt)) :
    extract_files_from_markdown (create_markdown files) = some [] := by
  have hnb : ∀ c ∈ (create_markdown files).data, c ≠ bt := by
    have := noBT_create_markdown (files.map (fun f => (f.1.data, f.2.data)))
      (by
        intro g hg
        rw [List.mem_map] at hg
        obtain ⟨f, hf, rfl⟩ := hg
        exact h f hf)
    exact this
  have hfind : findall_files (create_markdown files).data = [] :=
    extractGo_noBT _ _ hnb
  simp only [extract_files_from_markdown, hfind]
  simp

/-- C1 amended witness: a concrete nonempty record list round-trips to
the empty list. -/
theorem C1_amended_round_trip_witness :
    extract_files_from_markdown (create_markdown [("b.css", "body")]) = some [] :=
  C1_amended_round_trip [("b.css", "body")] (by decide)

/-- An element of the dependency set after an insertion is an old
element or the inserted one. -/
theorem mem_addDep {acc : List (List Char)} {d x : List Char}
    (h : x ∈ addDep acc d) : x ∈ acc ∨ x = d := by
  unfold addDep at h
  split at h
  · exact Or.inl h
  · rcases List.mem_append.mp h with h' | h'
    · exact Or.inl h'
    · exact Or.inr (List.mem_singleton.mp h')

/-- Splitting a string whose first character is not a slash yields a
first segment with that same first character. -/
theorem splitOnSlash_head_cons {c : Char} {t : List Char} (hc : c ≠ '/') :
    ∃ h rest, splitOnSlash (c :: t) = (c :: h) :: rest := by
  simp only [splitOnSlash]
  rw [if_neg (by simp [hc])]
  cases hs : splitOnSlash t with
  | nil => exact ⟨[], [], by simp⟩
  | cons h hs' => exact ⟨h, hs', by simp⟩

/-- Processing one specifier preserves the invariant that no collected
dependency starts with a character of the blacklist string: a
specifier added verbatim passed the character test, and a rebuilt
`scope/name` starts with the same character as the specifier it came
from. -/
theorem processDep_inv {acc : List (List Char)} {dep x : List Char}
    (hacc : ∀ y ∈ acc, ∀ pc ∈ blacklist_prefixes, isPre [pc] y = false)
    (hx : x ∈ processDep acc dep) :
    ∀ pc ∈ blacklist_prefixes, isPre [pc] x = false := by
  simp only [processDep] at hx
  split at hx
  · exact hacc x hx
  split at hx
  · exact hacc x hx
  rename_i hig hbl
  have hbl2 : blacklist_prefixes.any (fun pc => isPre [pc] dep) = false := by
    simpa using hbl
  have hbl' : ∀ pc ∈ blacklist_prefixes, isPre [pc] dep = false := by
    intro pc hpc
    have := List.any_eq_false.mp hbl2 pc hpc
    simpa using this
  split at hx
  · exact hacc x hx
  split at hx
  · rename_i hloc hslash
    rcases mem_addDep hx with h' | h'
    · exact hacc x h'
    · cases hd : dep with
      | nil =>
        rw [hd] at hslash
        exact absurd hslash (by decide)
      | cons d0 dtl =>
        have hd0 : d0 ≠ '/' := by
          intro heq
          have h2 := hbl' '/' (by decide)
          rw [hd] at h2
          simp [isPre, heq] at h2
        obtain ⟨seg, rest, hsplit⟩ := splitOnSlash_head_cons (t := dtl) hd0
        subst h'
        intro pc hpc
        have h3 := hbl' pc hpc
        rw [hd] at h3 ⊢
        rw [hsplit]
        simp [isPre] at h3 ⊢
        exact h3
  · rcases mem_addDep hx with h' | h'
    · exact hacc x h'
    · subst h'
      exact hbl'

/-- The inner per-specifier fold preserves the blacklist-character
invariant. -/
theorem foldl_processDep_inv :
    ∀ (deps : List (List Char)) (acc : List (List Char)),
    (∀ y ∈ acc, ∀ pc ∈ blacklist_prefixes, isPre [pc] y = false) →
    ∀ x ∈ deps.foldl processDep acc, ∀ pc ∈ blacklist_prefixes,
      isPre [pc] x = false := by
  intro deps
  induction deps with
  | nil => intro acc hacc x hx; exact hacc x hx
  | cons d ds ih =>
    intro acc hacc x hx
    simp only [List.foldl_cons] at hx
    exact ih (processDep acc d) (fun y hy => processDep_inv hacc hy) x hx

/-- Every inferred dependency avoids starting with any character of
the blacklist string. -/
theorem install_inv (files : List (List Char × List Char)) :
    ∀ x ∈ install_third_party_dependencies files,
    ∀ pc ∈ blacklist_prefixes, isPre [pc] x = false := by
  unfold install_third_party_dependencies
  suffices h : ∀ acc : List (List Char),
      (∀ y ∈ acc, ∀ pc ∈ blacklist_prefixes, isPre [pc] y = false) →
      ∀ x ∈ files.foldl
        (fun acc f => (importSpecifiers f.2).foldl processDep acc) acc,
      ∀ pc ∈ blacklist_prefixes, isPre [pc] x = false by
    intro x hx
    exact h [] (by simp) x hx
  induction files with
  | nil => intro acc hacc x hx; exact hacc x hx
  | cons f fs ih =>
    intro acc hacc x hx
    simp only [List.foldl_cons] at hx
    exact ih _ (fun y hy => foldl_processDep_inv _ _ hacc y hy) x hx

set_option maxRecDepth 10000 in
/-- C2 shows a code bug: `blacklist_prefixes = ("next/")` is a string,
not a tuple, so the prefix test iterates over its characters.  The
specifier `express` is captured from an import statement, is not in
the ignore list, and starts with none of `next/`, `./`, `@/` — the
claim requires it to be added — yet the code omits it because it
starts with the character `e` of the string `next/`. -/
theorem C2_blacklist_code_bug :
    importSpecifiers (("import e from \"express\"").data) = [("express").data] ∧
    install_third_party_dependencies
      [(("a.ts").data, ("import e from \"express\"").data)] = [] ∧
    ("express").data ∉ ignore_dependencies ∧
    isPre (("next/").data) (("express").data) = false ∧
    isPre (("./").data) (("express").data) = false ∧
    isPre (("@/").data) (("express").data) = false :=
  ⟨by decide, by decide, by decide, by decide, by decide, by decide⟩

set_option maxRecDepth 10000 in
/-- C6: the concrete exclusion and normalization examples hold —
`./components/x` and `@/lib/y` are excluded, `zod` is included as
`zod`, `@radix-ui/react-toast/sub` is normalized to
`@radix-ui/react-toast` — and every specifier starting with `next/` is
excluded from the inferred set, for every record sequence. -/
theorem C6_dependency_examples :
    install_third_party_dependencies
      [(("a.ts").data,
        ("import a from \"./components/x\"\nimport b from \"@/lib/y\"\nimport z from \"zod\"\nimport t from \"@radix-ui/react-toast/sub\"\nimport n from \"next/router\"").data)] =
      [("zod").data, ("@radix-ui/react-toast").data] ∧
    (∀ (files : List (List Char × List Char)) (dep : List Char),
      isPre (("next/").data) dep = true →
      dep ∉ install_third_party_dependencies files) := by
  refine ⟨by decide, ?_⟩
  intro files dep hpre hmem
  have hinv := install_inv files dep hmem
  cases dep with
  | nil => simp [isPre] at hpre
  | cons d0 dtl =>
    have hd0 : ('n' == d0) = true := by
      have h' : (('n' == d0) && isPre (("ext/").data) dtl) = true := by
        simpa [isPre] using hpre
      exact (Bool.and_eq_true _ _ |>.mp h').1
    have hn := hinv 'n' (by decide)
    simp [isPre, hd0] at hn

/-- C6 witness: the concrete specifier `next/router` starts with
`next/` and is excluded. -/
theorem C6_dependency_examples_witness :
    isPre (("next/").data) (("next/router").data) = true ∧
    ("next/router").data ∉ install_third_party_dependencies
      [(("a.ts").data, ("import n from \"next/router\"").data)] :=
  ⟨by decide, C6_dependency_examples.2 _ _ (by decide)⟩

/-- Stripping trailing slashes leaves a string whose last character is
not a slash unchanged. -/
theorem rstripSlash_of_getLast {l : List Char} {c : Char}
    (h : l.getLast? = some c) (hc : c ≠ '/') : rstripSlash l = l := by
  unfold rstripSlash
  cases hr : l.reverse with
  | nil =>
    have : l = [] := by simpa using hr
    subst this
    simp at h
  | cons a t =>
    have ha : a = c := by
      have := List.head?_reverse l
      rw [hr, h] at this
      simpa using this
    subst ha
    rw [List.dropWhile_cons_of_neg (by simp [hc])]
    rw [← hr, List.reverse_reverse]

/-- Stripping trailing slashes absorbs a final slash. -/
theorem rstripSlash_append_slash (l : List Char) :
    rstripSlash (l ++ ['/']) = rstripSlash l := by
  unfold rstripSlash
  rw [List.reverse_append]
  simp [List.dropWhile]

/-- Splitting never yields an empty segment list. -/
theorem splitOnSlash_ne_nil (l : List Char) : splitOnSlash l ≠ [] := by
  cases l with
  | nil => simp [splitOnSlash]
  | cons c t =>
    simp only [splitOnSlash]
    split
    · simp
    · split <;> simp

/-- Splitting at the first slash of a slash-free segment followed by a
slash peels off that segment. -/
theorem splitOnSlash_append {x : List Char} (y : List Char) (hx : '/' ∉ x) :
    splitOnSlash (x ++ '/' :: y) = x :: splitOnSlash y := by
  induction x with
  | nil => simp [splitOnSlash]
  | cons c ct ih =>
    have hc : (c == '/') = false := by
      simp
      exact fun heq => hx (heq ▸ List.mem_cons_self c ct)
    have ih' := ih (fun hm => hx (List.mem_cons_of_mem c hm))
    simp only [List.cons_append, splitOnSlash, List.append_eq, ih', hc,
      Bool.false_eq_true, if_false]

/-- Splitting a slash-free string yields a single segment. -/
theorem splitOnSlash_no_slash {x : List Char} (hx : '/' ∉ x) :
    splitOnSlash x = [x] := by
  induction x with
  | nil => rfl
  | cons c ct ih =>
    have hc : (c == '/') = false := by
      simp
      exact fun heq => hx (heq ▸ List.mem_cons_self c ct)
    have ih' := ih (fun hm => hx (List.mem_cons_of_mem c hm))
    simp only [splitOnSlash, ih', hc, Bool.false_eq_true, if_false]

/-- Joining the segments of a split reproduces the original string. -/
theorem joinSlash_splitOnSlash (x : List Char) :
    joinSlash (splitOnSlash x) = x := by
  induction x with
  | nil => rfl
  | cons c t ih =>
    by_cases hc : c = '/'
    · subst hc
      have hcb : (('/' : Char) == '/') = true := by decide
      simp only [splitOnSlash, hcb, if_true]
      cases hs : splitOnSlash t with
      | nil => exact absurd hs (splitOnSlash_ne_nil t)
      | cons h hs' =>
        rw [hs] at ih
        simp only [joinSlash, List.nil_append]
        rw [ih]
    · simp only [splitOnSlash]
      rw [if_neg (by simp [hc])]
      cases hs : splitOnSlash t with
      | nil => exact absurd hs (splitOnSlash_ne_nil t)
      | cons h hs' =>
        rw [hs] at ih
        cases hs' with
        | nil =>
          simp only [joinSlash] at ih ⊢
          rw [ih]
        | cons h2 hs2 =>
          simp only [joinSlash, List.cons_append] at ih ⊢
          rw [ih]

/-- The first `://` of an `https://` URL is the one after the scheme. -/
theorem findScheme_https (rest : List Char) :
    findScheme (("https://").data ++ rest) = some rest := by
  simp [findScheme, isPre, schemeSep]

/-- The path component of a URL under `https://github.com/`. -/
theorem urlPath_github (X : List Char) :
    urlPath (("https://github.com").data ++ '/' :: X) = '/' :: X := by
  have h1 : ("https://github.com").data ++ '/' :: X =
      ("https://").data ++ (("github.com").data ++ '/' :: X) := rfl
  rw [h1]
  simp only [urlPath]
  rw [findScheme_https]
  simp [List.dropWhile]

/-- The last element, when present, is a member. -/
theorem mem_of_getLast? {l : List Char} {c : Char}
    (h : l.getLast? = some c) : c ∈ l := by
  have hh := List.head?_reverse l
  rw [h] at hh
  cases hr : l.reverse with
  | nil => rw [hr] at hh; simp at hh
  | cons a t =>
    rw [hr] at hh
    simp at hh
    rw [← List.mem_reverse, hr, hh]
    exact List.mem_cons_self _ _

/-- Stripping trailing slashes leaves text ending in a suffix whose
last character is not a slash unchanged. -/
theorem rstripSlash_append_getLast {A B : List Char} {c : Char}
    (h : B.getLast? = some c) (hc : c ≠ '/') : rstripSlash (A ++ B) = A ++ B := by
  refine rstripSlash_of_getLast (c := c) ?_ hc
  rw [List.getLast?_append, h]
  rfl

/-- `parse_github_url` on an owner/repo URL without a `tree` segment:
branch `main`, empty subpath. -/
theorem parse_github_main (owner repo : List Char) (ho : owner ≠ [])
    (hr : repo ≠ []) (hos : '/' ∉ owner) (hrs : '/' ∉ repo) :
    parse_github_url (String.mk
      (("https://github.com/").data ++ owner ++ '/' :: repo)) =
      some (String.mk owner, String.mk repo, "main", "") := by
  obtain ⟨o0, ot, rfl⟩ : ∃ o0 ot, owner = o0 :: ot := by
    cases owner with
    | nil => exact absurd rfl ho
    | cons a t => exact ⟨a, t, rfl⟩
  have ho0 : o0 ≠ '/' := fun heq => hos (heq ▸ List.mem_cons_self o0 ot)
  obtain ⟨rl, hrl⟩ : ∃ rl, repo.getLast? = some rl := by
    cases hg : repo.getLast? with
    | none => exact absurd (by simpa using hg) hr
    | some a => exact ⟨a, rfl⟩
  have hrlne : rl ≠ '/' := fun heq => hrs (heq ▸ mem_of_getLast? hrl)
  rw [show String.mk (("https://github.com/").data ++ (o0 :: ot) ++ '/' :: repo) =
    String.mk (("https://github.com").data ++ '/' ::
      ((o0 :: ot) ++ '/' :: repo)) from rfl]
  simp only [parse_github_url]
  have hstrip1 : rstripSlash (("https://github.com").data ++ '/' ::
      ((o0 :: ot) ++ '/' :: repo)) =
      ("https://github.com").data ++ '/' :: ((o0 :: ot) ++ '/' :: repo) := by
    have hsp : ("https://github.com").data ++ '/' :: ((o0 :: ot) ++ '/' :: repo) =
        (("https://github.com").data ++ '/' :: ((o0 :: ot) ++ ['/'])) ++ repo := by
      simp [List.append_assoc]
    rw [hsp, rstripSlash_append_getLast hrl hrlne, ← hsp]
  rw [hstrip1, urlPath_github]
  simp only [stripSlash]
  rw [List.dropWhile_cons_of_pos (by decide)]
  show (if (splitOnSlash (rstripSlash (List.dropWhile (fun c => c == '/')
    ((o0 :: ot) ++ '/' :: repo)))).length < 2 then _ else _) = _
  rw [show (o0 :: ot) ++ '/' :: repo = o0 :: (ot ++ '/' :: repo) from rfl]
  rw [List.dropWhile_cons_of_neg (by simp [ho0])]
  rw [show o0 :: (ot ++ '/' :: repo) = (o0 :: ot) ++ '/' :: repo from rfl]
  have hstrip2 : rstripSlash ((o0 :: ot) ++ '/' :: repo) =
      (o0 :: ot) ++ '/' :: repo := by
    have hsp : (o0 :: ot) ++ '/' :: repo = ((o0 :: ot) ++ ['/']) ++ repo := by
      simp [List.append_assoc]
    rw [hsp, rstripSlash_append_getLast hrl hrlne, ← hsp]
  rw [hstrip2, splitOnSlash_append _ hos, splitOnSlash_no_slash hrs]
  rw [if_neg (by simp)]
  rw [if_neg (by simp)]
  simp [joinSlash]

/-- `parse_github_url` on a URL with a `tree/<branch>` segment: that
branch, and the remaining segments joined as the subpath. -/
theorem parse_github_tree (owner repo branch sub : List Char)
    (ho : owner ≠ []) (_hr : repo ≠ []) (hb : branch ≠ [])
    (hos : '/' ∉ owner) (hrs : '/' ∉ repo) (hbs : '/' ∉ branch)
    (hsub : sub.getLast? ≠ some '/') :
    parse_github_url (String.mk (("https://github.com/").data ++ owner ++
      '/' :: repo ++ '/' :: ("tree/").data ++ branch ++ '/' :: sub)) =
      some (String.mk owner, String.mk repo, String.mk branch, String.mk sub) := by
  obtain ⟨o0, ot, rfl⟩ : ∃ o0 ot, owner = o0 :: ot := by
    cases owner with
    | nil => exact absurd rfl ho
    | cons a t => exact ⟨a, t, rfl⟩
  have ho0 : o0 ≠ '/' := fun heq => hos (heq ▸ List.mem_cons_self o0 ot)
  have htree : ('/' : Char) ∉ ("tree").data := by decide
  have hcanon : ("https://github.com/").data ++ (o0 :: ot) ++
      '/' :: repo ++ '/' :: ("tree/").data ++ branch ++ '/' :: sub =
      ("https://github.com").data ++ '/' :: ((o0 :: ot) ++ '/' ::
        (repo ++ '/' :: (("tree").data ++ '/' :: (branch ++ '/' :: sub)))) := by
    rw [show ("https://github.com/").data =
          ("https://github.com").data ++ ['/'] from rfl,
        show ("tree/").data = ("tree").data ++ ['/'] from rfl]
    simp [List.append_assoc]
  simp only [parse_github_url]
  rw [hcanon]
  by_cases hse : sub = []
  · subst hse
    obtain ⟨bl, hbl⟩ : ∃ bl, branch.getLast? = some bl := by
      cases hg : branch.getLast? with
      | none => exact absurd (by simpa using hg) hb
      | some a => exact ⟨a, rfl⟩
    have hblne : bl ≠ '/' := fun heq => hbs (heq ▸ mem_of_getLast? hbl)
    have hsp1 : ("https://github.com").data ++ '/' :: ((o0 :: ot) ++ '/' ::
        (repo ++ '/' :: (("tree").data ++ '/' :: (branch ++ '/' :: ([] : List Char))))) =
        (("https://github.com").data ++ '/' :: ((o0 :: ot) ++ '/' ::
          (repo ++ '/' :: (("tree").data ++ '/' :: branch)))) ++ ['/'] := by
      simp [List.append_assoc]
    have hsp2 : ("https://github.com").data ++ '/' :: ((o0 :: ot) ++ '/' ::
        (repo ++ '/' :: (("tree").data ++ '/' :: branch))) =
        (("https://github.com").data ++ '/' :: ((o0 :: ot) ++ '/' ::
          (repo ++ '/' :: (("tree").data ++ ['/'])))) ++ branch := by
      simp [List.append_assoc]
    rw [hsp1, rstripSlash_append_slash, hsp2,
      rstripSlash_append_getLast hbl hblne, ← hsp2, urlPath_github]
    simp only [stripSlash]
    rw [List.dropWhile_cons_of_pos (by decide)]
    rw [show (o0 :: ot) ++ '/' :: (repo ++ '/' :: (("tree").data ++ '/' :: branch)) =
      o0 :: (ot ++ '/' :: (repo ++ '/' :: (("tree").data ++ '/' :: branch))) from rfl]
    rw [List.dropWhile_cons_of_neg (by simp [ho0])]
    rw [show o0 :: (ot ++ '/' :: (repo ++ '/' :: (("tree").data ++ '/' :: branch))) =
      (o0 :: ot) ++ '/' :: (repo ++ '/' :: (("tree").data ++ '/' :: branch)) from rfl]
    have hsp3 : (o0 :: ot) ++ '/' :: (repo ++ '/' :: (("tree").data ++ '/' :: branch)) =
        ((o0 :: ot) ++ '/' :: (repo ++ '/' :: (("tree").data ++ ['/']))) ++ branch := by
      simp [List.append_assoc]
    rw [hsp3, rstripSlash_append_getLast hbl hblne, ← hsp3]
    rw [splitOnSlash_append _ hos, splitOnSlash_append _ hrs,
      splitOnSlash_append _ htree, splitOnSlash_no_slash hbs]
    rw [if_neg (by simp only [List.length_cons]; omega)]
    rw [if_pos ⟨by simp only [List.length_cons]; omega, by simp; rfl⟩]
    simp [joinSlash]
  · obtain ⟨s0, hsl⟩ : ∃ s0, sub.getLast? = some s0 := by
      cases hg : sub.getLast? with
      | none => exact absurd (by simpa using hg) hse
      | some a => exact ⟨a, rfl⟩
    have hs0 : s0 ≠ '/' := fun heq => hsub (heq ▸ hsl)
    have hsp1 : ("https://github.com").data ++ '/' :: ((o0 :: ot) ++ '/' ::
        (repo ++ '/' :: (("tree").data ++ '/' :: (branch ++ '/' :: sub)))) =
        (("https://github.com").data ++ '/' :: ((o0 :: ot) ++ '/' ::
          (repo ++ '/' :: (("tree").data ++ '/' :: (branch ++ ['/']))))) ++ sub := by
      simp [List.append_assoc]
    rw [hsp1, rstripSlash_append_getLast hsl hs0, ← hsp1, urlPath_github]
    simp only [stripSlash]
    rw [List.dropWhile_cons_of_pos (by decide)]
    rw [show (o0 :: ot) ++ '/' ::
        (repo ++ '/' :: (("tree").data ++ '/' :: (branch ++ '/' :: sub))) =
      o0 :: (ot ++ '/' ::
        (repo ++ '/' :: (("tree").data ++ '/' :: (branch ++ '/' :: sub)))) from rfl]
    rw [List.dropWhile_cons_of_neg (by simp [ho0])]
    rw [show o0 :: (ot ++ '/' ::
        (repo ++ '/' :: (("tree").data ++ '/' :: (branch ++ '/' :: sub)))) =
      (o0 :: ot) ++ '/' ::
        (repo ++ '/' :: (("tree").data ++ '/' :: (branch ++ '/' :: sub))) from rfl]
    have hsp2 : (o0 :: ot) ++ '/' ::
        (repo ++ '/' :: (("tree").data ++ '/' :: (branch ++ '/' :: sub))) =
        ((o0 :: ot) ++ '/' ::
          (repo ++ '/' :: (("tree").data ++ '/' :: (branch ++ ['/'])))) ++ sub := by
      simp [List.append_assoc]
    rw [hsp2, rstripSlash_append_getLast hsl hs0, ← hsp2]
    rw [splitOnSlash_append _ hos, splitOnSlash_append _ hrs,
      splitOnSlash_append _ htree, splitOnSlash_append _ hbs]
    rw [if_neg (by simp only [List.length_cons]; omega)]
    rw [if_pos ⟨by simp only [List.length_cons]; omega, by simp; rfl⟩]
    simp [joinSlash_splitOnSlash]

/-- C10: a repository URL whose path has only owner and repo parses to
branch `main` with an empty subpath; a URL with a `tree/<branch>`
segment parses to that branch with the remaining segments joined as
the subpath. -/
theorem C10_parse_github_url :
    (∀ owner repo : List Char, owner ≠ [] → repo ≠ [] →
      '/' ∉ owner → '/' ∉ repo →
      parse_github_url (String.mk
        (("https://github.com/").data ++ owner ++ '/' :: repo)) =
        some (String.mk owner, String.mk repo, "main", "")) ∧
    (∀ owner repo branch sub : List Char, owner ≠ [] → repo ≠ [] →
      branch ≠ [] → '/' ∉ owner → '/' ∉ repo → '/' ∉ branch →
      sub.getLast? ≠ some '/' →
      parse_github_url (String.mk (("https://github.com/").data ++ owner ++
        '/' :: repo ++ '/' :: ("tree/").data ++ branch ++ '/' :: sub)) =
        some (String.mk owner, String.mk repo, String.mk branch, String.mk sub)) :=
  ⟨parse_github_main, parse_github_tree⟩

/-- C10 witness: two concrete URLs, one without and one with a `tree`
segment. -/
theorem C10_parse_github_url_witness :
    parse_github_url (String.mk
      (("https://github.com/").data ++ ("octo").data ++ '/' :: ("hello").data)) =
      some (String.mk ("octo").data, String.mk ("hello").data, "main", "") ∧
    parse_github_url (String.mk (("https://github.com/").data ++ ("octo").data ++
      '/' :: ("hello").data ++ '/' :: ("tree/").data ++ ("dev").data ++
      '/' :: ("src/app").data)) =
      some (String.mk ("octo").data, String.mk ("hello").data,
            String.mk ("dev").data, String.mk ("src/app").data) :=
  ⟨C10_parse_github_url.1 (("octo").data) (("hello").data)
      (by decide) (by decide) (by decide) (by decide),
    C10_parse_github_url.2 (("octo").data) (("hello").data) (("dev").data)
      (("src/app").data) (by decide) (by decide) (by decide) (by decide)
      (by decide) (by decide) (by decide)⟩
